import Mathlib

/-!
Shallow embedding of `src/append/mqtt.rs` (the log4rs MQTT appender) and
proofs about it.  Strings are modelled as `List Char` (the relevant code is
ASCII-only), machine integers as `Nat`, and fallible Rust functions as
`Except`/`Option`-returning Lean functions.  Functions that Rust defines by
scanning a string (`str::replace`, `str::trim_start_matches`) are written
with an explicit fuel argument equal to the scanned list's length, so that
they are structurally recursive and evaluate inside the kernel.
-/

/-- Log severities, mirroring `log::Level` (Error, Warn, Info, Debug, Trace). -/
inductive Level
  | error
  | warn
  | info
  | debug
  | trace
deriving DecidableEq

/-- The `Display` rendering of `log::Level` (`record.level().to_string()`),
which is the upper-case severity name. -/
def Level.display : Level → List Char
  | .error => "ERROR".data
  | .warn => "WARN".data
  | .info => "INFO".data
  | .debug => "DEBUG".data
  | .trace => "TRACE".data

/-- ASCII lowering of one character, the effect of Rust `to_lowercase` on the
ASCII-only severity names. -/
def asciiLower (c : Char) : Char :=
  if 'A' ≤ c ∧ c ≤ 'Z' then Char.ofNat (c.toNat + 32) else c

/-- `String::to_lowercase` on the ASCII severity names. -/
def toLowercase (s : List Char) : List Char :=
  s.map asciiLower

/-- The lower-cased severity name used on the publish path:
`record.level().to_string().to_lowercase()` in `MqttAppender::append`. -/
def levelLower (l : Level) : List Char :=
  toLowercase l.display

/-- Fuel-indexed worker for Rust `str::replace`: scan left to right, and at
each position where the (non-empty) pattern is a prefix, emit the replacement
and skip past the match; otherwise copy one character.  Fuel
`s.length` always suffices because every step consumes at least one input
character. -/
def replaceAllF (pat rep : List Char) : Nat → List Char → List Char
  | _, [] => []
  | 0, s => s
  | fuel + 1, c :: rest =>
    if pat ≠ [] ∧ pat.isPrefixOf (c :: rest) then
      rep ++ replaceAllF pat rep fuel ((c :: rest).drop pat.length)
    else
      c :: replaceAllF pat rep fuel rest

/-- Rust `str::replace(pat, rep)` (all non-overlapping occurrences, leftmost
first), for a non-empty pattern. -/
def replaceAll (pat rep s : List Char) : List Char :=
  replaceAllF pat rep s.length s

/-- Topic resolution, inlined in `MqttAppender::append`:
`self.topic_template.replace("{level}", &record.level().to_string().to_lowercase())`. -/
def resolveTopic (template : List Char) (l : Level) : List Char :=
  replaceAll "{level}".data (levelLower l) template

/-- Modelled from the spec: replacement of only the FIRST occurrence of the
placeholder, as the spec sentence "replaces the first occurrence of the
placeholder token" describes.  Used solely to compare the spec's words with
the source's `str::replace` (which replaces every occurrence). -/
def replaceFirstSpec (pat rep : List Char) : List Char → List Char
  | [] => []
  | c :: rest =>
    if pat.isPrefixOf (c :: rest) then rep ++ (c :: rest).drop pat.length
    else c :: replaceFirstSpec pat rep rest

/-- Does `pat` occur as a contiguous substring of `s`?  (Decidable occurrence
test used to state the "placeholder absent" case.) -/
def hasSubstr (pat : List Char) : List Char → Bool
  | [] => pat.isEmpty
  | c :: rest => pat.isPrefixOf (c :: rest) || hasSubstr pat rest

/-- Fuel-indexed worker for Rust `str::trim_start_matches`: repeatedly remove
the (non-empty) pattern from the front while it is a prefix.  Fuel `s.length`
suffices because each strip removes at least one character. -/
def trimStartMatchesF (pat : List Char) : Nat → List Char → List Char
  | 0, s => s
  | fuel + 1, s =>
    if pat ≠ [] ∧ pat.isPrefixOf s then
      trimStartMatchesF pat fuel (s.drop pat.length)
    else
      s

/-- Rust `str::trim_start_matches(pat)` for a non-empty pattern. -/
def trimStartMatches (pat s : List Char) : List Char :=
  trimStartMatchesF pat s.length s

/-- The scheme-stripping chain at the top of `parse_broker_url`:
`url.trim_start_matches("mqtt://").trim_start_matches("mqtts://").trim_start_matches("tcp://")`. -/
def stripSchemes (url : List Char) : List Char :=
  trimStartMatches "tcp://".data
    (trimStartMatches "mqtts://".data
      (trimStartMatches "mqtt://".data url))

/-- Rust `str::rfind(':')`: the index of the last colon, if any. -/
def rfindColon : List Char → Option Nat
  | [] => none
  | c :: rest =>
    match rfindColon rest with
    | some i => some (i + 1)
    | none => if c = ':' then some 0 else none

/-- Digit-accumulating worker for `u16::from_str`: consumes decimal digits,
failing on any non-digit. -/
def digitsVal : List Char → Nat → Option Nat
  | [], acc => some acc
  | c :: rest, acc =>
    if c.isDigit then digitsVal rest (acc * 10 + (c.toNat - 48)) else none

/-- The optional leading `'+'` sign accepted by Rust's integer `FromStr`. -/
def stripPlus (s : List Char) : List Char :=
  if s.head? = some '+' then s.tail else s

/-- Rust `str::parse::<u16>()`: optional leading `'+'`, then a non-empty run
of decimal digits whose value fits in 16 bits; anything else is `none`. -/
def parseU16 (s : List Char) : Option Nat :=
  if stripPlus s = [] then none
  else
    match digitsVal (stripPlus s) 0 with
    | some v => if v ≤ 65535 then some v else none
    | none => none

/-- The only error `parse_broker_url` constructs:
`io::Error::new(io::ErrorKind::InvalidInput, "Invalid port number")`. -/
inductive ParseErr
  | invalidPort
deriving DecidableEq

/-- `parse_broker_url` from `src/append/mqtt.rs`: strip the scheme prefixes,
split host from port at the last colon (defaulting the port to 1883 when no
colon is present), and parse the trailing segment as a `u16`. -/
def parseBrokerUrl (url : List Char) : Except ParseErr (List Char × Nat) :=
  match rfindColon (stripSchemes url) with
  | some colonPos =>
    match parseU16 ((stripSchemes url).drop (colonPos + 1)) with
    | some port => .ok ((stripSchemes url).take colonPos, port)
    | none => .error .invalidPort
  | none => .ok (stripSchemes url, 1883)

/-- MQTT delivery-quality levels, mirroring `rumqttc::QoS`. -/
inductive QoS
  | AtMostOnce
  | AtLeastOnce
  | ExactlyOnce
deriving DecidableEq

/-- Opaque error value for a failed `io::Write` operation.  `MqttBuffer`
never constructs one; the constructor exists only so the result type is the
honest `io::Result`. -/
inductive IoErr
  | ioFailure
deriving DecidableEq

/-- The byte-buffer sink `MqttBuffer(Vec<u8>)` used for encoding. -/
structure MqttBuffer where
  data : List Nat
deriving DecidableEq

/-- `MqttBuffer::new()`. -/
def MqttBuffer.new : MqttBuffer :=
  ⟨[]⟩

/-- `io::Write::write` for `MqttBuffer`: `self.0.extend_from_slice(buf); Ok(buf.len())`. -/
def MqttBuffer.write (b : MqttBuffer) (buf : List Nat) : Except IoErr Nat × MqttBuffer :=
  (.ok buf.length, ⟨b.data ++ buf⟩)

/-- `io::Write::flush` for `MqttBuffer`: `Ok(())`. -/
def MqttBuffer.flush (b : MqttBuffer) : Except IoErr Unit × MqttBuffer :=
  (.ok (), b)

/-- `encode::Write::set_style` for `MqttBuffer`: styling is ignored, `Ok(())`.
The style argument is abstract (its content is never inspected). -/
def MqttBuffer.setStyle (b : MqttBuffer) (_style : Nat) : Except IoErr Unit × MqttBuffer :=
  (.ok (), b)

/-- One operation an encoder may perform against its sink. -/
inductive WriteOp
  | write (bytes : List Nat)
  | flushSink
  | setStyle (style : Nat)
deriving DecidableEq

/-- Apply one sink operation to the buffer (discarding the always-`ok` result). -/
def applyOp (b : MqttBuffer) : WriteOp → MqttBuffer
  | .write bytes => (b.write bytes).2
  | .flushSink => b.flush.2
  | .setStyle st => (b.setStyle st).2

/-- Run a sequence of sink operations against the buffer. -/
def runOps (b : MqttBuffer) : List WriteOp → MqttBuffer
  | [] => b
  | op :: rest => runOps (applyOp b op) rest

/-- The bytes an operation sequence writes, in order. -/
def writtenBytes : List WriteOp → List Nat
  | [] => []
  | .write bytes :: rest => bytes ++ writtenBytes rest
  | _ :: rest => writtenBytes rest

/-- Opaque encoder-failure value (`anyhow::Error` from `Encode::encode`). -/
inductive EncodeErr
  | encodeFailure (code : Nat)
deriving DecidableEq

/-- Opaque publish-failure value (`rumqttc::ClientError` from `Client::publish`). -/
inductive ClientErr
  | clientFailure (code : Nat)
deriving DecidableEq

/-- A log record as the appender observes it: its severity plus an abstract
payload field that only the encoder interprets. -/
structure Record where
  level : Level
  message : List Char

/-- An encoder (`Box<dyn Encode>`): given a record it either fails or
performs a sequence of sink operations.  (`MqttBuffer`'s operations never
fail, so an encoder run against it is fully described by this list.) -/
def Encoder : Type :=
  Record → Except EncodeErr (List WriteOp)

/-- One publish invocation on the underlying `rumqttc::Client`, with the
exact arguments of `client.publish(&topic, self.qos, false, buffer.0)`. -/
structure PublishCall where
  topic : List Char
  qos : QoS
  retain : Bool
  payload : List Nat
deriving DecidableEq

/-- The client's publish behaviour: what `Client::publish` returns for a
given call.  The real client is an external collaborator; the appender only
consumes this synchronous publish capability. -/
def ClientBehavior : Type :=
  PublishCall → Except ClientErr Unit

/-- Errors `MqttAppender::append` can return (the `anyhow::Result`): a
propagated encoder error (`?` on `encode`) or a converted publish error
(`Err(e.into())`). -/
inductive AppendErr
  | encode (e : EncodeErr)
  | publish (e : ClientErr)
deriving DecidableEq

/-- `MqttAppender`: topic template, QoS and encoder.  The `Arc<Mutex<Client>>`
field is not part of the pure state; the client's publish capability is
passed to `append` explicitly (see `ClientBehavior`), and the mutex's
serialization of publishes is modelled separately as a transition system. -/
structure MqttAppender where
  topic_template : List Char
  qos : QoS
  encoder : Encoder

/-- The publish call `append` makes for a record once the encoder has
produced the operation list `ops`. -/
def mkCall (a : MqttAppender) (record : Record) (ops : List WriteOp) : PublishCall :=
  { topic := resolveTopic a.topic_template record.level
    qos := a.qos
    retain := false
    payload := (runOps MqttBuffer.new ops).data }

/-- `MqttAppender::append`: encode the record into a fresh `MqttBuffer`
(propagating encoder errors), resolve `{level}` in the topic template, then
publish `(topic, qos, retain=false, buffer.0)` on the client, returning
`Ok(())` on success and the converted error on failure.  Besides the Rust
return value, the model also returns the list of publish invocations
performed, so "exactly one publish" is an observable fact. -/
def MqttAppender.append (a : MqttAppender) (client : ClientBehavior) (record : Record) :
    Except AppendErr Unit × List PublishCall :=
  match a.encoder record with
  | .error e => (.error (.encode e), [])
  | .ok ops =>
    let call := mkCall a record ops
    match client call with
    | .ok _ => (.ok (), [call])
    | .error e => (.error (.publish e), [call])

/-- `MqttAppender::flush`: `fn flush(&self) {}` — the appender is untouched
and no publish occurs.  Modelled with the same observables as `append`:
the (unchanged) appender and the (empty) list of publish invocations. -/
def MqttAppender.flush (a : MqttAppender) : MqttAppender × List PublishCall :=
  (a, [])

/-- `MqttAppenderBuilder`. -/
structure MqttAppenderBuilder where
  broker : List Char
  client_id : List Char
  topic : List Char
  qos : QoS
  username : Option (List Char)
  password : Option (List Char)
  encoder : Option Encoder

/-- `MqttAppender::builder()` with its documented defaults. -/
def MqttAppender.builder : MqttAppenderBuilder :=
  { broker := "mqtt://localhost:1883".data
    client_id := "log4rs_client".data
    topic := "logs".data
    qos := .AtMostOnce
    username := none
    password := none
    encoder := none }

/-- `MqttAppenderBuilder::broker`. -/
def MqttAppenderBuilder.set_broker (b : MqttAppenderBuilder) (broker : List Char) :
    MqttAppenderBuilder :=
  { b with broker := broker }

/-- `MqttAppenderBuilder::client_id`. -/
def MqttAppenderBuilder.set_client_id (b : MqttAppenderBuilder) (client_id : List Char) :
    MqttAppenderBuilder :=
  { b with client_id := client_id }

/-- `MqttAppenderBuilder::topic`. -/
def MqttAppenderBuilder.set_topic (b : MqttAppenderBuilder) (topic : List Char) :
    MqttAppenderBuilder :=
  { b with topic := topic }

/-- `MqttAppenderBuilder::qos`: maps the integer 0/1/2 to the delivery level,
any other integer to `AtMostOnce`. -/
def MqttAppenderBuilder.set_qos (b : MqttAppenderBuilder) (qos : Nat) : MqttAppenderBuilder :=
  { b with
    qos :=
      match qos with
      | 0 => QoS.AtMostOnce
      | 1 => QoS.AtLeastOnce
      | 2 => QoS.ExactlyOnce
      | _ => QoS.AtMostOnce }

/-- `MqttAppenderBuilder::username`. -/
def MqttAppenderBuilder.set_username (b : MqttAppenderBuilder) (username : Option (List Char)) :
    MqttAppenderBuilder :=
  { b with username := username }

/-- `MqttAppenderBuilder::password`. -/
def MqttAppenderBuilder.set_password (b : MqttAppenderBuilder) (password : Option (List Char)) :
    MqttAppenderBuilder :=
  { b with password := password }

/-- `MqttAppenderBuilder::encoder`. -/
def MqttAppenderBuilder.set_encoder (b : MqttAppenderBuilder) (encoder : Encoder) :
    MqttAppenderBuilder :=
  { b with encoder := some encoder }

/-- Modelled from the spec: the default pattern-based text encoder
(`PatternEncoder::default()`) is an external collaborator outside `src/`;
no claim depends on its output, so it is modelled as a fixed total encoder. -/
def patternEncoderDefault : Encoder :=
  fun record => .ok [.write (record.message.map Char.toNat)]

/-- The connection options `build` assembles: `MqttOptions::new(client_id,
host, port)`, a 30-second keep-alive, and credentials exactly when both a
username and a password were supplied. -/
structure MqttOptions where
  host : List Char
  port : Nat
  client_id : List Char
  keep_alive : Nat
  credentials : Option (List Char × List Char)

/-- `MqttAppenderBuilder::build`: parse the broker URL (propagating its
error), assemble the connection options, and produce the appender with the
configured or default encoder.  Client/thread creation is an external side
effect with no further observable state here, so the model returns the
options alongside the appender. -/
def MqttAppenderBuilder.build (b : MqttAppenderBuilder) :
    Except ParseErr (MqttOptions × MqttAppender) :=
  match parseBrokerUrl b.broker with
  | .error e => .error e
  | .ok (host, port) =>
    .ok
      ({ host := host
         port := port
         client_id := b.client_id
         keep_alive := 30
         credentials :=
           match b.username, b.password with
           | some u, some p => some (u, p)
           | _, _ => none },
       { topic_template := b.topic
         qos := b.qos
         encoder := b.encoder.getD patternEncoderDefault })

/-- `MqttAppenderConfig` (the `config_parsing` surface). -/
structure MqttAppenderConfig where
  broker : List Char
  client_id : List Char
  topic : List Char
  qos : Option Nat
  username : Option (List Char)
  password : Option (List Char)
  encoder : Option Encoder

/-- `MqttAppenderDeserializer::deserialize`: apply the builder setters for
every supplied key (the `qos` and `encoder` setters only when the key is
present) and build. -/
def MqttAppenderDeserializer.deserialize (config : MqttAppenderConfig) :
    Except ParseErr (MqttOptions × MqttAppender) :=
  let builder :=
    ((((MqttAppender.builder.set_broker config.broker).set_client_id
        config.client_id).set_topic config.topic).set_username
      config.username).set_password config.password
  let builder :=
    match config.qos with
    | some q => builder.set_qos q
    | none => builder
  let builder :=
    match config.encoder with
    | some enc => builder.set_encoder enc
    | none => builder
  builder.build

/-- Thread phases in the concurrency model of `append`.  A thread is
`start` before it has reached `self.client.lock()`, `locked` while it holds
the mutex and its `client.publish(..)` call is in flight, and `done` after
the publish returned and the lock guard was dropped.  (Encoding and topic
resolution are thread-local and need no shared state.) -/
inductive TState
  | start
  | locked
  | done
deriving DecidableEq

/-- Shared-memory state for `n` application threads each performing one
`append` against one appender: the per-thread phases, the owner of the
`Mutex<Client>` if it is held, and how many publish invocations have
completed on the session. -/
structure MState where
  threads : List TState
  lockHeld : Option Nat
  published : Nat

/-- All `n` threads about to call `append`; the mutex free; no publishes yet. -/
def initState (n : Nat) : MState :=
  { threads := List.replicate n .start, lockHeld := none, published := 0 }

/-- The number of threads that have completed their publish. -/
def doneCount : List TState → Nat
  | [] => 0
  | st :: rest => (if st = .done then 1 else 0) + doneCount rest

/-- Interleaving semantics of the shared publish path.  `acquire` is
`self.client.lock()` succeeding (only possible while no other thread holds
the mutex); `publishRelease` is the owning thread's `client.publish(..)`
returning and the guard being dropped at the end of `append`'s scope. -/
inductive MStep : MState → MState → Prop
  | acquire (s : MState) (t : Nat)
      (hstart : s.threads[t]? = some .start)
      (hfree : s.lockHeld = none) :
      MStep s { threads := s.threads.set t .locked, lockHeld := some t,
                published := s.published }
  | publishRelease (s : MState) (t : Nat)
      (hlocked : s.threads[t]? = some .locked)
      (hown : s.lockHeld = some t) :
      MStep s { threads := s.threads.set t .done, lockHeld := none,
                published := s.published + 1 }

/-- States reachable from `initState n` by interleaving the threads' steps. -/
inductive Reach (n : Nat) : MState → Prop
  | init : Reach n (initState n)
  | step {s s' : MState} : Reach n s → MStep s s' → Reach n s'

/-- Inductive invariant of the publish path: the thread list keeps its
length, the mutex owner is exactly the thread whose publish is in flight,
and the completed-publish counter counts the `done` threads. -/
def MInv (n : Nat) (s : MState) : Prop :=
  s.threads.length = n ∧
  (∀ t, s.lockHeld = some t → s.threads[t]? = some .locked) ∧
  (∀ t, s.threads[t]? = some .locked → s.lockHeld = some t) ∧
  s.published = doneCount s.threads

/-- A tiny concrete encoder used in witnesses: writes the two bytes "hi". -/
def demoEncoder : Encoder :=
  fun _ => .ok [.write [104, 105]]

/-- A concrete record used in witnesses. -/
def demoRecord : Record :=
  { level := .info, message := "hello".data }

/-- A concrete appender used in witnesses. -/
def demoAppender : MqttAppender :=
  { topic_template := "logs/{level}".data, qos := .AtMostOnce, encoder := demoEncoder }

/-- A client whose publish always succeeds. -/
def okClient : ClientBehavior :=
  fun _ => .ok ()

/-- A client whose publish always fails. -/
def failClient : ClientBehavior :=
  fun _ => .error (.clientFailure 7)

/-- A concrete configuration with no `qos` key, used in the C6 witness. -/
def demoConfigNoQos : MqttAppenderConfig :=
  { broker := "mqtt://localhost:1883".data
    client_id := "log4rs_client".data
    topic := "logs".data
    qos := none
    username := none
    password := none
    encoder := none }

/-- A concrete builder with both credentials supplied, used in the C7 witness. -/
def demoCredBuilder : MqttAppenderBuilder :=
  (MqttAppender.builder.set_username (some "user".data)).set_password (some "pass".data)

theorem replaceAllF_nil (pat rep : List Char) (f : Nat) : replaceAllF pat rep f [] = [] := by
  cases f <;> rfl

theorem replaceAllF_succ (pat rep : List Char) (f : Nat) (c : Char) (rest : List Char) :
    replaceAllF pat rep (f + 1) (c :: rest) =
      if pat ≠ [] ∧ pat.isPrefixOf (c :: rest) then
        rep ++ replaceAllF pat rep f ((c :: rest).drop pat.length)
      else
        c :: replaceAllF pat rep f rest := rfl

theorem trimStartMatchesF_zero (pat s : List Char) : trimStartMatchesF pat 0 s = s := rfl

theorem trimStartMatchesF_succ (pat s : List Char) (f : Nat) :
    trimStartMatchesF pat (f + 1) s =
      if pat ≠ [] ∧ pat.isPrefixOf s then trimStartMatchesF pat f (s.drop pat.length)
      else s := rfl

theorem isPrefixOf_append_self (p r : List Char) : p.isPrefixOf (p ++ r) = true := by
  induction p with
  | nil => simp
  | cons a as ih => simp [List.isPrefixOf, ih]

theorem isPrefixOf_append_left (p : List Char) :
    ∀ s r : List Char, p.length ≤ s.length → p.isPrefixOf (s ++ r) = p.isPrefixOf s := by
  induction p with
  | nil => intro s r _; simp
  | cons a as ih =>
    intro s r hlen
    cases s with
    | nil => simp at hlen
    | cons b bs =>
      show ((a == b) && as.isPrefixOf (bs ++ r)) = ((a == b) && as.isPrefixOf bs)
      rw [ih bs r (by simpa using hlen)]

theorem isPrefixOf_head_ne (a b : Char) (p s : List Char) (h : ¬a = b) :
    (a :: p).isPrefixOf (b :: s) = false := by
  show ((a == b) && p.isPrefixOf s) = false
  rw [beq_eq_false_iff_ne.mpr h, Bool.false_and]

theorem trimStartMatchesF_skip (pat s : List Char) (f : Nat)
    (h : pat.isPrefixOf s = false) : trimStartMatchesF pat f s = s := by
  cases f with
  | zero => rfl
  | succ f =>
    rw [trimStartMatchesF_succ, if_neg]
    rintro ⟨-, hpre⟩
    rw [h] at hpre
    exact Bool.false_ne_true hpre

theorem trimStartMatches_skip (pat s : List Char) (h : pat.isPrefixOf s = false) :
    trimStartMatches pat s = s :=
  trimStartMatchesF_skip pat s s.length h

theorem trimStartMatchesF_nil (pat : List Char) (f : Nat) : trimStartMatchesF pat f [] = [] := by
  cases f with
  | zero => rfl
  | succ f =>
    have hcond : ¬(pat ≠ [] ∧ pat.isPrefixOf ([] : List Char)) := by
      rintro ⟨hne, hpre⟩
      cases pat with
      | nil => exact hne rfl
      | cons a as => exact Bool.false_ne_true hpre
    rw [trimStartMatchesF_succ, if_neg hcond]

theorem trimStartMatchesF_fuel (pat : List Char) :
    ∀ f1 f2 s, s.length ≤ f1 → s.length ≤ f2 →
      trimStartMatchesF pat f1 s = trimStartMatchesF pat f2 s := by
  intro f1
  induction f1 with
  | zero =>
    intro f2 s h1 _
    have hs : s = [] := List.length_eq_zero.mp (Nat.le_zero.mp h1)
    subst hs
    rw [trimStartMatchesF_nil, trimStartMatchesF_nil]
  | succ f ih =>
    intro f2 s h1 h2
    cases f2 with
    | zero =>
      have hs : s = [] := List.length_eq_zero.mp (Nat.le_zero.mp h2)
      subst hs
      rw [trimStartMatchesF_nil, trimStartMatchesF_nil]
    | succ f2 =>
      rw [trimStartMatchesF_succ, trimStartMatchesF_succ]
      by_cases h : pat ≠ [] ∧ pat.isPrefixOf s
      · rw [if_pos h, if_pos h]
        have hp : 1 ≤ pat.length := by
          cases pat with
          | nil => exact absurd rfl h.1
          | cons a as => simp
        apply ih
        · simp only [List.length_drop]; omega
        · simp only [List.length_drop]; omega
      · rw [if_neg h, if_neg h]

theorem trimStartMatches_append_self (pat r : List Char) (hne : pat ≠ []) :
    trimStartMatches pat (pat ++ r) = trimStartMatches pat r := by
  cases pat with
  | nil => exact absurd rfl hne
  | cons a as =>
    show trimStartMatchesF (a :: as) ((a :: as) ++ r).length ((a :: as) ++ r) = _
    have hlen : ((a :: as) ++ r).length = (as ++ r).length + 1 := by simp
    rw [hlen, trimStartMatchesF_succ,
      if_pos ⟨hne, by rw [isPrefixOf_append_self]⟩, List.drop_left]
    exact trimStartMatchesF_fuel (a :: as) ((as ++ r).length) r.length r (by simp) (Nat.le_refl _)

theorem stripSchemes_unchanged (s : List Char)
    (h1 : "mqtt://".data.isPrefixOf s = false)
    (h2 : "mqtts://".data.isPrefixOf s = false)
    (h3 : "tcp://".data.isPrefixOf s = false) :
    stripSchemes s = s := by
  unfold stripSchemes
  rw [trimStartMatches_skip _ _ h1, trimStartMatches_skip _ _ h2,
    trimStartMatches_skip _ _ h3]

theorem stripSchemes_strips_scheme (scheme rest : List Char)
    (hs : scheme = "mqtt://".data ∨ scheme = "mqtts://".data ∨ scheme = "tcp://".data)
    (h1 : "mqtt://".data.isPrefixOf rest = false)
    (h2 : "mqtts://".data.isPrefixOf rest = false)
    (h3 : "tcp://".data.isPrefixOf rest = false) :
    stripSchemes (scheme ++ rest) = rest := by
  have e2 : trimStartMatches "mqtts://".data rest = rest :=
    trimStartMatches_skip _ _ h2
  have e3 : trimStartMatches "tcp://".data rest = rest :=
    trimStartMatches_skip _ _ h3
  rcases hs with hs | hs | hs <;> subst hs <;> unfold stripSchemes
  · have s1 : trimStartMatches "mqtt://".data ("mqtt://".data ++ rest) =
        trimStartMatches "mqtt://".data rest :=
      trimStartMatches_append_self _ _ (by decide)
    have e1 : trimStartMatches "mqtt://".data rest = rest :=
      trimStartMatches_skip _ _ h1
    rw [s1, e1, e2, e3]
  · have n1 : "mqtt://".data.isPrefixOf ("mqtts://".data ++ rest) = false := by
      have := isPrefixOf_append_left "mqtt://".data "mqtts://".data rest (by decide)
      rw [this]; decide
    have s1 : trimStartMatches "mqtt://".data ("mqtts://".data ++ rest) =
        "mqtts://".data ++ rest :=
      trimStartMatches_skip _ _ n1
    have s2 : trimStartMatches "mqtts://".data ("mqtts://".data ++ rest) =
        trimStartMatches "mqtts://".data rest :=
      trimStartMatches_append_self _ _ (by decide)
    rw [s1, s2, e2, e3]
  · have n1 : "mqtt://".data.isPrefixOf ("tcp://".data ++ rest) = false :=
      isPrefixOf_head_ne 'm' 't' "qtt://".data ("cp://".data ++ rest) (by decide)
    have n2 : "mqtts://".data.isPrefixOf ("tcp://".data ++ rest) = false :=
      isPrefixOf_head_ne 'm' 't' "qtts://".data ("cp://".data ++ rest) (by decide)
    have s1 : trimStartMatches "mqtt://".data ("tcp://".data ++ rest) =
        "tcp://".data ++ rest :=
      trimStartMatches_skip _ _ n1
    have s2 : trimStartMatches "mqtts://".data ("tcp://".data ++ rest) =
        "tcp://".data ++ rest :=
      trimStartMatches_skip _ _ n2
    have s3 : trimStartMatches "tcp://".data ("tcp://".data ++ rest) =
        trimStartMatches "tcp://".data rest :=
      trimStartMatches_append_self _ _ (by decide)
    rw [s1, s2, s3, e3]

theorem rfindColon_of_no_colon (s : List Char) (h : ':' ∉ s) : rfindColon s = none := by
  induction s with
  | nil => rfl
  | cons c rest ih =>
    have hc : ¬c = ':' := fun hc => h (hc ▸ List.mem_cons_self c rest)
    have hr : ':' ∉ rest := fun hm => h (List.mem_cons_of_mem c hm)
    simp [rfindColon, ih hr, hc]

theorem rfindColon_append_colon (h p : List Char) (hp : ':' ∉ p) :
    rfindColon (h ++ ':' :: p) = some h.length := by
  induction h with
  | nil => simp [rfindColon, rfindColon_of_no_colon p hp]
  | cons c hs ih => simp [rfindColon, ih]

theorem digitsVal_all_digits (s : List Char) :
    ∀ acc v, digitsVal s acc = some v → ∀ c ∈ s, c.isDigit := by
  induction s with
  | nil => intro _ _ _ c hc; cases hc
  | cons d rest ih =>
    intro acc v h c hc
    by_cases hd : d.isDigit
    · rw [digitsVal, if_pos hd] at h
      rcases List.mem_cons.mp hc with hc | hc
      · exact hc ▸ hd
      · exact ih _ _ h c hc
    · rw [digitsVal, if_neg hd] at h
      cases h

theorem mem_stripPlus (c : Char) (s : List Char) (hc : c ∈ s) (hne : ¬c = '+') :
    c ∈ stripPlus s := by
  unfold stripPlus
  by_cases hh : s.head? = some '+'
  · rw [if_pos hh]
    cases s with
    | nil => cases hc
    | cons a rest =>
      have ha : a = '+' := by simpa using hh
      rcases List.mem_cons.mp hc with hcol | hcol
      · exact absurd (ha ▸ hcol) hne
      · simpa using hcol
  · rw [if_neg hh]
    exact hc

theorem parseU16_no_colon (s : List Char) (v : Nat) (h : parseU16 s = some v) : ':' ∉ s := by
  intro hmem
  unfold parseU16 at h
  by_cases hsp : stripPlus s = []
  · rw [if_pos hsp] at h; cases h
  · rw [if_neg hsp] at h
    cases hd : digitsVal (stripPlus s) 0 with
    | none => rw [hd] at h; cases h
    | some v' =>
      have hall := digitsVal_all_digits (stripPlus s) 0 v' hd
      have hmem' : ':' ∈ stripPlus s := mem_stripPlus ':' s hmem (by decide)
      exact absurd (hall ':' hmem') (by decide)

theorem parseBrokerUrl_no_colon (s : List Char) (h : rfindColon (stripSchemes s) = none) :
    parseBrokerUrl s = .ok (stripSchemes s, 1883) := by
  unfold parseBrokerUrl
  rw [h]

theorem parseBrokerUrl_error_iff (s : List Char) :
    parseBrokerUrl s = .error .invalidPort ↔
      ∃ i, rfindColon (stripSchemes s) = some i ∧
        parseU16 ((stripSchemes s).drop (i + 1)) = none := by
  unfold parseBrokerUrl
  cases h : rfindColon (stripSchemes s) with
  | none => simp [h]
  | some i =>
    cases hp : parseU16 ((stripSchemes s).drop (i + 1)) with
    | none => simp [h, hp]
    | some p => simp [h, hp]

theorem parse_scheme_host_port (scheme host portStr : List Char) (p : Nat)
    (hs : scheme = "mqtt://".data ∨ scheme = "mqtts://".data ∨ scheme = "tcp://".data)
    (h1 : "mqtt://".data.isPrefixOf (host ++ ':' :: portStr) = false)
    (h2 : "mqtts://".data.isPrefixOf (host ++ ':' :: portStr) = false)
    (h3 : "tcp://".data.isPrefixOf (host ++ ':' :: portStr) = false)
    (hp : parseU16 portStr = some p) :
    parseBrokerUrl (scheme ++ (host ++ ':' :: portStr)) = .ok (host, p) := by
  have hstrip := stripSchemes_strips_scheme scheme (host ++ ':' :: portStr) hs h1 h2 h3
  have hnc : ':' ∉ portStr := parseU16_no_colon portStr p hp
  have hshape : host ++ ':' :: portStr = (host ++ [':']) ++ portStr := by simp
  have hdrop : (host ++ ':' :: portStr).drop (host.length + 1) = portStr := by
    rw [hshape]
    exact List.drop_left' (by simp)
  have htake : (host ++ ':' :: portStr).take host.length = host := List.take_left host _
  unfold parseBrokerUrl
  rw [hstrip, rfindColon_append_colon host portStr hnc]
  show (match parseU16 ((host ++ ':' :: portStr).drop (host.length + 1)) with
        | some port => Except.ok ((host ++ ':' :: portStr).take host.length, port)
        | none => Except.error ParseErr.invalidPort) = Except.ok (host, p)
  rw [hdrop, hp, htake]

theorem replaceAllF_fuel (pat rep : List Char) :
    ∀ f1 f2 s, s.length ≤ f1 → s.length ≤ f2 →
      replaceAllF pat rep f1 s = replaceAllF pat rep f2 s := by
  intro f1
  induction f1 with
  | zero =>
    intro f2 s h1 _
    have hs : s = [] := List.length_eq_zero.mp (Nat.le_zero.mp h1)
    subst hs
    rw [replaceAllF_nil, replaceAllF_nil]
  | succ f ih =>
    intro f2 s h1 h2
    cases s with
    | nil => rw [replaceAllF_nil, replaceAllF_nil]
    | cons c rest =>
      cases f2 with
      | zero => simp at h2
      | succ f2 =>
        rw [replaceAllF_succ, replaceAllF_succ]
        by_cases h : pat ≠ [] ∧ pat.isPrefixOf (c :: rest)
        · rw [if_pos h, if_pos h]
          have hp : 1 ≤ pat.length := by
            cases pat with
            | nil => exact absurd rfl h.1
            | cons a as => simp
          have hlen : (c :: rest).length = rest.length + 1 := rfl
          congr 1
          apply ih
          · simp only [List.length_drop]
            simp only [hlen] at h1 ⊢
            omega
          · simp only [List.length_drop]
            simp only [hlen] at h2 ⊢
            omega
        · rw [if_neg h, if_neg h]
          congr 1
          apply ih
          · simpa using Nat.le_of_succ_le_succ (by simpa using h1)
          · simpa using Nat.le_of_succ_le_succ (by simpa using h2)

theorem replaceAll_append_pat (pat rep s : List Char) (hne : pat ≠ []) :
    replaceAll pat rep (pat ++ s) = rep ++ replaceAll pat rep s := by
  cases pat with
  | nil => exact absurd rfl hne
  | cons a as =>
    show replaceAllF (a :: as) rep ((a :: as) ++ s).length (a :: (as ++ s)) = _
    have hlen : ((a :: as) ++ s).length = (as ++ s).length + 1 := by simp
    rw [hlen, replaceAllF_succ,
      if_pos ⟨hne, by rw [show a :: (as ++ s) = (a :: as) ++ s from rfl, isPrefixOf_append_self]⟩]
    congr 1
    rw [show ((a :: as) : List Char).length = (a :: as).length from rfl]
    rw [show (a :: (as ++ s) : List Char) = (a :: as) ++ s from rfl, List.drop_left]
    exact replaceAllF_fuel (a :: as) rep ((as ++ s).length) s.length s (by simp) (Nat.le_refl _)

theorem replaceAll_not_contains (pat rep : List Char) :
    ∀ s, hasSubstr pat s = false → replaceAll pat rep s = s := by
  have key : ∀ f s, s.length ≤ f → hasSubstr pat s = false →
      replaceAllF pat rep f s = s := by
    intro f
    induction f with
    | zero =>
      intro s h1 _
      have hs : s = [] := List.length_eq_zero.mp (Nat.le_zero.mp h1)
      subst hs
      rfl
    | succ f ih =>
      intro s h1 hsub
      cases s with
      | nil => rfl
      | cons c rest =>
        have hor : pat.isPrefixOf (c :: rest) = false ∧ hasSubstr pat rest = false := by
          have : (pat.isPrefixOf (c :: rest) || hasSubstr pat rest) = false := hsub
          exact ⟨by simpa using (Bool.or_eq_false_iff.mp this).1,
            (Bool.or_eq_false_iff.mp this).2⟩
        rw [replaceAllF_succ, if_neg (by rintro ⟨-, hpre⟩; rw [hor.1] at hpre; cases hpre)]
        rw [ih rest (by simpa using Nat.le_of_succ_le_succ (by simpa using h1)) hor.2]
  intro s hsub
  exact key s.length s (Nat.le_refl _) hsub

theorem replaceAll_cons_no_match (pat rep : List Char) (c : Char) (rest : List Char)
    (h : pat.isPrefixOf (c :: rest) = false) :
    replaceAll pat rep (c :: rest) = c :: replaceAll pat rep rest := by
  show replaceAllF pat rep (c :: rest).length (c :: rest) = _
  have hlen : (c :: rest).length = rest.length + 1 := rfl
  rw [hlen, replaceAllF_succ, if_neg (by rintro ⟨-, hpre⟩; rw [h] at hpre; cases hpre)]
  rfl

theorem resolveTopic_cons_no_match (c : Char) (rest : List Char) (l : Level)
    (h : "{level}".data.isPrefixOf (c :: rest) = false) :
    resolveTopic (c :: rest) l = c :: resolveTopic rest l :=
  replaceAll_cons_no_match "{level}".data (levelLower l) c rest h

theorem eq_append_drop_of_isPrefixOf :
    ∀ p s : List Char, p.isPrefixOf s = true → s = p ++ s.drop p.length := by
  intro p
  induction p with
  | nil => intro s _; simp
  | cons a as ih =>
    intro s h
    cases s with
    | nil => simp at h
    | cons b bs =>
      have h' : ((a == b) && as.isPrefixOf bs) = true := h
      have hab : a = b := by simpa using (Bool.and_eq_true_iff.mp h').1
      subst hab
      have hd : (a :: bs).drop (a :: as).length = bs.drop as.length := rfl
      show a :: bs = (a :: as) ++ (a :: bs).drop (a :: as).length
      rw [hd, List.cons_append]
      exact congrArg (List.cons a) (ih bs (Bool.and_eq_true_iff.mp h').2)

theorem runOps_data (ops : List WriteOp) :
    ∀ b : MqttBuffer, (runOps b ops).data = b.data ++ writtenBytes ops := by
  induction ops with
  | nil => intro b; simp [runOps, writtenBytes]
  | cons op rest ih =>
    intro b
    cases op with
    | write bytes =>
      simp [runOps, applyOp, MqttBuffer.write, writtenBytes, ih, List.append_assoc]
    | flushSink => simp [runOps, applyOp, MqttBuffer.flush, writtenBytes, ih]
    | setStyle st => simp [runOps, applyOp, MqttBuffer.setStyle, writtenBytes, ih]

theorem append_of_encoder_ok (a : MqttAppender) (client : ClientBehavior) (record : Record)
    (ops : List WriteOp) (h : a.encoder record = .ok ops) :
    a.append client record =
      match client (mkCall a record ops) with
      | .ok _ => (.ok (), [mkCall a record ops])
      | .error e => (.error (.publish e), [mkCall a record ops]) := by
  unfold MqttAppender.append
  rw [h]

theorem getElem?_replicate_eq {α : Type} (a b : α) :
    ∀ (n t : Nat), (List.replicate n a)[t]? = some b → b = a := by
  intro n
  induction n with
  | zero => intro t h; cases h
  | succ n ih =>
    intro t h
    cases t with
    | zero => simpa using h.symm
    | succ t => exact ih t (by simpa [List.replicate_succ] using h)

theorem getElem?_some_lt {α : Type} :
    ∀ (l : List α) (i : Nat) (a : α), l[i]? = some a → i < l.length := by
  intro l
  induction l with
  | nil => intro i a h; cases h
  | cons x rest ih =>
    intro i a h
    cases i with
    | zero => simp
    | succ i => simpa using Nat.succ_lt_succ (ih i a (by simpa using h))

theorem doneCount_replicate_start (n : Nat) :
    doneCount (List.replicate n TState.start) = 0 := by
  induction n with
  | zero => rfl
  | succ n ih => simpa [List.replicate, doneCount] using ih

theorem doneCount_set_of_ne :
    ∀ (l : List TState) (i : Nat) (a b : TState), l[i]? = some a →
      a ≠ TState.done → b ≠ TState.done → doneCount (l.set i b) = doneCount l := by
  intro l
  induction l with
  | nil => intro i a b h _ _; cases h
  | cons x rest ih =>
    intro i a b h ha hb
    cases i with
    | zero =>
      have hx : x = a := by simpa using h
      subst hx
      simp [List.set, doneCount, ha, hb]
    | succ i =>
      have := ih i a b (by simpa using h) ha hb
      simp [List.set, doneCount, this]

theorem doneCount_set_done :
    ∀ (l : List TState) (i : Nat) (a : TState), l[i]? = some a →
      a ≠ TState.done → doneCount (l.set i TState.done) = doneCount l + 1 := by
  intro l
  induction l with
  | nil => intro i a h _; cases h
  | cons x rest ih =>
    intro i a h ha
    cases i with
    | zero =>
      have hx : x = a := by simpa using h
      subst hx
      simp [List.set, doneCount, ha]
      omega
    | succ i =>
      have := ih i a (by simpa using h) ha
      simp [List.set, doneCount, this]
      omega

theorem doneCount_of_all_done :
    ∀ l : List TState, (∀ t, t < l.length → l[t]? = some TState.done) →
      doneCount l = l.length := by
  intro l
  induction l with
  | nil => intro _; rfl
  | cons x rest ih =>
    intro h
    have hx : x = TState.done := by
      have h0 := h 0 (by simp)
      simpa using h0
    have hr : doneCount rest = rest.length := by
      apply ih
      intro t ht
      have ht1 := h (t + 1) (by simpa using Nat.succ_lt_succ ht)
      simpa using ht1
    simp [doneCount, hx, hr]
    omega

theorem reach_inv (n : Nat) (s : MState) (h : Reach n s) : MInv n s := by
  induction h with
  | init =>
    refine ⟨by simp [initState], ?_, ?_, ?_⟩
    · intro t ht
      cases ht
    · intro t ht
      exact absurd (getElem?_replicate_eq _ _ _ _ ht) (by decide)
    · simp [initState, doneCount_replicate_start]
  | @step s s' hr hstep ih =>
    obtain ⟨hlen, hown, hlock, hcount⟩ := ih
    cases hstep with
    | acquire t hstart hfree =>
      have htlt : t < s.threads.length := getElem?_some_lt _ _ _ hstart
      refine ⟨by simpa using hlen, ?_, ?_, ?_⟩
      · intro t' ht'
        have heq : t' = t := by simpa using ht'.symm
        subst heq
        simp [List.getElem?_set_self htlt]
      · intro t' ht'
        by_cases heq : t' = t
        · subst heq; rfl
        · rw [List.getElem?_set_ne (fun hh => heq hh.symm)] at ht'
          have hcontra := hlock t' ht'
          rw [hfree] at hcontra
          cases hcontra
      · have hdc := doneCount_set_of_ne s.threads t TState.start TState.locked hstart
          (by decide) (by decide)
        simpa [hdc] using hcount
    | publishRelease t hlocked hown' =>
      have htlt : t < s.threads.length := getElem?_some_lt _ _ _ hlocked
      refine ⟨by simpa using hlen, ?_, ?_, ?_⟩
      · intro t' ht'
        cases ht'
      · intro t' ht'
        by_cases heq : t' = t
        · subst heq
          rw [List.getElem?_set_self htlt] at ht'
          cases ht'
        · rw [List.getElem?_set_ne (fun hh => heq hh.symm)] at ht'
          have hsome := hlock t' ht'
          rw [hown'] at hsome
          exact absurd (by simpa using hsome.symm) heq
      · have hdc := doneCount_set_done s.threads t TState.locked hlocked (by decide)
        simp only [hdc, hcount]

/-- C1: one call to `append` performs exactly one publish on the underlying
client, with topic equal to the resolved topic template for the record's
severity, the configured QoS, retain = false, and payload exactly the bytes
the configured encoder produced for the record; when the publish succeeds,
`append` returns `Ok(())`. -/
theorem mqtt_append_one_publish (a : MqttAppender) (client : ClientBehavior)
    (record : Record) (ops : List WriteOp) (h : a.encoder record = .ok ops) :
    (a.append client record).2 =
      [{ topic := resolveTopic a.topic_template record.level, qos := a.qos,
         retain := false, payload := writtenBytes ops }] ∧
    (client (mkCall a record ops) = .ok () → (a.append client record).1 = .ok ()) := by
  have hmk : mkCall a record ops =
      { topic := resolveTopic a.topic_template record.level, qos := a.qos,
        retain := false, payload := writtenBytes ops } := by
    unfold mkCall
    have hdata : (runOps MqttBuffer.new ops).data = writtenBytes ops := by
      rw [runOps_data]
      rfl
    rw [hdata]
  rw [append_of_encoder_ok a client record ops h]
  constructor
  · cases hc : client (mkCall a record ops) <;> simp [hc, hmk]
  · intro hok
    simp [hok]

/-- Witness for C1: a concrete appender, succeeding client and record; the
single publish carries topic "logs/info", QoS 0, retain false and the
encoder's two bytes, and `append` returns ok. -/
theorem mqtt_append_one_publish_witness :
    demoEncoder demoRecord = .ok [WriteOp.write [104, 105]] ∧
    (demoAppender.append okClient demoRecord).2 =
      [{ topic := "logs/info".data, qos := QoS.AtMostOnce, retain := false,
         payload := [104, 105] }] ∧
    (demoAppender.append okClient demoRecord).1 = .ok () := by
  have h := mqtt_append_one_publish demoAppender okClient demoRecord
    [WriteOp.write [104, 105]] rfl
  refine ⟨rfl, ?_, h.2 rfl⟩
  rw [h.1]
  decide

/-- Counterexample for C2: the source's topic resolution uses `str::replace`,
which replaces EVERY occurrence of "\x7blevel\x7d", not only the first; on the
template "\x7blevel\x7d\x7blevel\x7d" at severity Warn the code yields
"warnwarn", while first-occurrence-only replacement (the claim's words) yields
"warn\x7blevel\x7d". -/
theorem resolve_topic_first_occurrence_counterexample :
    resolveTopic "{level}{level}".data .warn = "warnwarn".data ∧
    replaceFirstSpec "{level}".data (levelLower .warn) "{level}{level}".data =
      "warn{level}".data ∧
    resolveTopic "{level}{level}".data .warn ≠
      replaceFirstSpec "{level}".data (levelLower .warn) "{level}{level}".data :=
  ⟨by decide, by decide, by decide⟩

/-- C2 (amended): for EVERY template string, topic resolution replaces every
(leftmost-first, non-overlapping) occurrence of the placeholder
"\x7blevel\x7d" with the severity name in lowercase.  Stated as a complete
characterization: three recursion laws that cover every template (empty;
placeholder at the head, which is replaced and scanning resumes after it;
any other head character, which is copied) together with the fact that
`resolveTopic` is the UNIQUE function satisfying those laws.  In addition:
if the placeholder is absent the template is returned unchanged, resolving
"logs/\x7blevel\x7d" at Warn yields "logs/warn", resolving "logs" at Warn
yields "logs", text before an occurrence is preserved
("a\x7blevel\x7d" at Warn yields "awarn"), and every occurrence is replaced
("\x7blevel\x7d\x7blevel\x7d" at Warn yields "warnwarn"). -/
theorem resolve_topic_replaces_all :
    (∀ l : Level, resolveTopic [] l = []) ∧
    (∀ (s : List Char) (l : Level),
      resolveTopic ("{level}".data ++ s) l = levelLower l ++ resolveTopic s l) ∧
    (∀ (c : Char) (rest : List Char) (l : Level),
      "{level}".data.isPrefixOf (c :: rest) = false →
      resolveTopic (c :: rest) l = c :: resolveTopic rest l) ∧
    (∀ f : List Char → Level → List Char,
      (∀ l, f [] l = []) →
      (∀ s l, f ("{level}".data ++ s) l = levelLower l ++ f s l) →
      (∀ c rest l, "{level}".data.isPrefixOf (c :: rest) = false →
        f (c :: rest) l = c :: f rest l) →
      ∀ (t : List Char) (l : Level), f t l = resolveTopic t l) ∧
    (∀ (t : List Char) (l : Level),
      hasSubstr "{level}".data t = false → resolveTopic t l = t) ∧
    resolveTopic "logs/{level}".data .warn = "logs/warn".data ∧
    resolveTopic "logs".data .warn = "logs".data ∧
    resolveTopic "a{level}".data .warn = "awarn".data ∧
    resolveTopic "{level}{level}".data .warn = "warnwarn".data := by
  refine ⟨fun l => rfl, ?_, resolveTopic_cons_no_match, ?_, ?_,
    by decide, by decide, by decide, by decide⟩
  · intro s l
    exact replaceAll_append_pat "{level}".data (levelLower l) s (by decide)
  · intro f hf1 hf2 hf3
    have key : ∀ (n : Nat) (t : List Char), t.length ≤ n →
        ∀ l, f t l = resolveTopic t l := by
      intro n
      induction n with
      | zero =>
        intro t ht l
        have hnil : t = [] := List.length_eq_zero.mp (Nat.le_zero.mp ht)
        subst hnil
        rw [hf1]
        rfl
      | succ n ih =>
        intro t ht l
        cases t with
        | nil =>
          rw [hf1]
          rfl
        | cons c rest =>
          by_cases hp : "{level}".data.isPrefixOf (c :: rest) = true
          · have hdecomp : c :: rest =
                "{level}".data ++ (c :: rest).drop ("{level}".data).length :=
              eq_append_drop_of_isPrefixOf "{level}".data (c :: rest) hp
            have hdlen : ((c :: rest).drop ("{level}".data).length).length ≤ n := by
              have h7 : ("{level}".data).length = 7 := rfl
              have hc : (c :: rest).length = rest.length + 1 := rfl
              simp only [List.length_drop, h7, hc]
              simp only [List.length_cons] at ht
              omega
            calc f (c :: rest) l
                = f ("{level}".data ++ (c :: rest).drop ("{level}".data).length) l := by
                  rw [← hdecomp]
              _ = levelLower l ++ f ((c :: rest).drop ("{level}".data).length) l :=
                  hf2 _ l
              _ = levelLower l ++
                  resolveTopic ((c :: rest).drop ("{level}".data).length) l := by
                  rw [ih _ hdlen l]
              _ = resolveTopic
                  ("{level}".data ++ (c :: rest).drop ("{level}".data).length) l :=
                  (replaceAll_append_pat "{level}".data (levelLower l) _
                    (by decide)).symm
              _ = resolveTopic (c :: rest) l := by rw [← hdecomp]
          · have hp' : "{level}".data.isPrefixOf (c :: rest) = false := by
              revert hp
              cases "{level}".data.isPrefixOf (c :: rest) <;> simp
            have hrlen : rest.length ≤ n := by
              simp only [List.length_cons] at ht
              omega
            rw [hf3 c rest l hp', resolveTopic_cons_no_match c rest l hp']
            exact congrArg (List.cons c) (ih rest hrlen l)
    exact fun t l => key t.length t (Nat.le_refl _) l
  · intro t l h
    exact replaceAll_not_contains "{level}".data (levelLower l) t h

/-- Witness for C2 (amended): a non-matching head character is copied in
front of the resolved tail ("a\x7blevel\x7d" at Warn), and a
placeholder-free template is unchanged. -/
theorem resolve_topic_replaces_all_witness :
    "{level}".data.isPrefixOf "a{level}".data = false ∧
    resolveTopic "a{level}".data .warn = 'a' :: resolveTopic "{level}".data .warn ∧
    hasSubstr "{level}".data "logs".data = false ∧
    resolveTopic "logs".data .info = "logs".data :=
  ⟨by decide,
    resolve_topic_replaces_all.2.2.1 'a' "{level}".data .warn (by decide),
    by decide,
    resolve_topic_replaces_all.2.2.2.2.1 "logs".data .info (by decide)⟩

/-- Counterexample for C3: on the input "mqtt://mqtt://h:1" — which has the
form scheme://host:port with scheme "mqtt" and host "mqtt://h" — the code
does not return the host exactly: `trim_start_matches` strips the scheme
prefix REPEATEDLY, so both leading "mqtt://" runs are removed and the host
comes back as "h". -/
theorem parse_broker_url_double_scheme_counterexample :
    parseBrokerUrl ("mqtt://".data ++ ("mqtt://h".data ++ ':' :: "1".data)) =
      .ok ("h".data, 1) ∧
    ("h".data : List Char) ≠ "mqtt://h".data :=
  ⟨rfl, by decide⟩

/-- C3 (amended): broker-address parsing strips the recognized scheme
prefixes ("mqtt://", then "mqtts://", then "tcp://", each repeatedly) from
the front, splits host from port at the last colon, and: for every input
scheme://host:port with a valid u16 port whose remainder host:port does not
itself begin with a recognized scheme prefix it returns (host, port)
exactly; with no colon after stripping it returns the remainder with
default port 1883; and it fails with InvalidPort exactly when the segment
after the last colon does not parse as a u16 ("host:99999" and "host:abc"
both fail). -/
theorem parse_broker_url_spec :
    (∀ (scheme host portStr : List Char) (p : Nat),
      (scheme = "mqtt://".data ∨ scheme = "mqtts://".data ∨ scheme = "tcp://".data) →
      "mqtt://".data.isPrefixOf (host ++ ':' :: portStr) = false →
      "mqtts://".data.isPrefixOf (host ++ ':' :: portStr) = false →
      "tcp://".data.isPrefixOf (host ++ ':' :: portStr) = false →
      parseU16 portStr = some p →
      parseBrokerUrl (scheme ++ (host ++ ':' :: portStr)) = .ok (host, p)) ∧
    (∀ s, rfindColon (stripSchemes s) = none →
      parseBrokerUrl s = .ok (stripSchemes s, 1883)) ∧
    parseBrokerUrl "localhost".data = .ok ("localhost".data, 1883) ∧
    (∀ s, parseBrokerUrl s = .error .invalidPort ↔
      ∃ i, rfindColon (stripSchemes s) = some i ∧
        parseU16 ((stripSchemes s).drop (i + 1)) = none) ∧
    parseBrokerUrl "host:99999".data = .error .invalidPort ∧
    parseBrokerUrl "host:abc".data = .error .invalidPort := by
  exact ⟨parse_scheme_host_port, parseBrokerUrl_no_colon, rfl,
    parseBrokerUrl_error_iff, rfl, rfl⟩

/-- Witness for C3 (amended): "mqtt://localhost:8080" parses to
("localhost", 8080). -/
theorem parse_broker_url_spec_witness :
    parseBrokerUrl ("mqtt://".data ++ ("localhost".data ++ ':' :: "8080".data)) =
      .ok ("localhost".data, 8080) :=
  parse_broker_url_spec.1 "mqtt://".data "localhost".data "8080".data 8080
    (Or.inl rfl) (by decide) (by decide) (by decide) (by decide)

/-- C4: publishes from concurrent `append` calls are strictly serialized by
the `Mutex<Client>`: in every reachable state at most one thread's publish
is in flight, and when all n threads have finished, exactly n publish
invocations have occurred. -/
theorem mqtt_publishes_serialized (n : Nat) (s : MState) (h : Reach n s) :
    (∀ t1 t2 : Nat, s.threads[t1]? = some TState.locked →
      s.threads[t2]? = some TState.locked → t1 = t2) ∧
    ((∀ t, t < n → s.threads[t]? = some TState.done) → s.published = n) := by
  obtain ⟨hlen, hown, hlock, hcount⟩ := reach_inv n s h
  constructor
  · intro t1 t2 h1 h2
    have e1 := hlock t1 h1
    have e2 := hlock t2 h2
    rw [e1] at e2
    simpa using e2
  · intro hall
    rw [hcount, doneCount_of_all_done s.threads (fun t ht => hall t (hlen ▸ ht)), hlen]

/-- Witness for C4: a complete two-step execution of one thread — acquire,
then publish-and-release — reaches the all-done state with exactly one
publish recorded. -/
theorem mqtt_publishes_serialized_witness :
    ({ threads := [TState.done], lockHeld := none, published := 1 } : MState).published = 1 := by
  have hmid : Reach 1 { threads := [TState.locked], lockHeld := some 0, published := 0 } :=
    Reach.step Reach.init (MStep.acquire _ 0 rfl rfl)
  have hreach : Reach 1 { threads := [TState.done], lockHeld := none, published := 1 } :=
    Reach.step hmid (MStep.publishRelease _ 0 rfl rfl)
  refine (mqtt_publishes_serialized 1 _ hreach).2 ?_
  intro t ht
  have ht0 : t = 0 := Nat.lt_one_iff.mp ht
  subst ht0
  rfl

/-- C5: when the client's publish fails, `append` surfaces the converted
publish error to the caller after having made its single publish attempt,
and the appender (an immutable value whose fields `append` never changes)
remains usable: any later `append` on the same appender with a succeeding
publish returns ok. -/
theorem mqtt_append_publish_error_recoverable (a : MqttAppender) (client : ClientBehavior)
    (record : Record) (ops : List WriteOp) (e : ClientErr)
    (h : a.encoder record = .ok ops) (hc : client (mkCall a record ops) = .error e) :
    (a.append client record).1 = .error (.publish e) ∧
    (a.append client record).2 = [mkCall a record ops] ∧
    (∀ (client2 : ClientBehavior) (record2 : Record) (ops2 : List WriteOp),
      a.encoder record2 = .ok ops2 → client2 (mkCall a record2 ops2) = .ok () →
      (a.append client2 record2).1 = .ok ()) := by
  refine ⟨?_, ?_, ?_⟩
  · rw [append_of_encoder_ok a client record ops h]
    simp [hc]
  · rw [append_of_encoder_ok a client record ops h]
    simp [hc]
  · intro client2 record2 ops2 h2 hc2
    rw [append_of_encoder_ok a client2 record2 ops2 h2]
    simp [hc2]

/-- Witness for C5: with an always-failing client the error is surfaced; the
same appender then succeeds against a succeeding client. -/
theorem mqtt_append_publish_error_recoverable_witness :
    (demoAppender.append failClient demoRecord).1 =
      .error (.publish (.clientFailure 7)) ∧
    (demoAppender.append okClient demoRecord).1 = .ok () := by
  have h := mqtt_append_publish_error_recoverable demoAppender failClient demoRecord
    [WriteOp.write [104, 105]] (.clientFailure 7) rfl rfl
  exact ⟨h.1, h.2.2 okClient demoRecord [WriteOp.write [104, 105]] rfl rfl⟩

/-- C6: the builder's `qos` setter maps 0 to AtMostOnce, 1 to AtLeastOnce,
2 to ExactlyOnce; every other integer (e.g. 9) maps to AtMostOnce rather
than erroring; and an absent `qos` key in the configuration yields the
builder default AtMostOnce. -/
theorem mqtt_qos_mapping :
    (∀ b : MqttAppenderBuilder,
      (b.set_qos 0).qos = QoS.AtMostOnce ∧
      (b.set_qos 1).qos = QoS.AtLeastOnce ∧
      (b.set_qos 2).qos = QoS.ExactlyOnce) ∧
    (∀ (b : MqttAppenderBuilder) (q : Nat), q ≠ 0 → q ≠ 1 → q ≠ 2 →
      (b.set_qos q).qos = QoS.AtMostOnce) ∧
    (MqttAppender.builder.set_qos 9).qos = QoS.AtMostOnce ∧
    (∀ (cfg : MqttAppenderConfig) (opts : MqttOptions) (app : MqttAppender),
      cfg.qos = none → MqttAppenderDeserializer.deserialize cfg = .ok (opts, app) →
      app.qos = QoS.AtMostOnce) := by
  refine ⟨fun b => ⟨rfl, rfl, rfl⟩, ?_, rfl, ?_⟩
  · intro b q h0 h1 h2
    match q with
    | 0 => exact absurd rfl h0
    | 1 => exact absurd rfl h1
    | 2 => exact absurd rfl h2
    | k + 3 => rfl
  · intro cfg opts app hq hdes
    unfold MqttAppenderDeserializer.deserialize at hdes
    rw [hq] at hdes
    cases henc : cfg.encoder with
    | none =>
      rw [henc] at hdes
      unfold MqttAppenderBuilder.build at hdes
      simp only [MqttAppenderBuilder.set_broker, MqttAppenderBuilder.set_client_id,
        MqttAppenderBuilder.set_topic, MqttAppenderBuilder.set_username,
        MqttAppenderBuilder.set_password, MqttAppender.builder] at hdes
      cases hparse : parseBrokerUrl cfg.broker with
      | error e => rw [hparse] at hdes; cases hdes
      | ok hp =>
        obtain ⟨host, port⟩ := hp
        rw [hparse] at hdes
        simp only [Except.ok.injEq, Prod.mk.injEq] at hdes
        obtain ⟨-, happ⟩ := hdes
        rw [← happ]
    | some enc =>
      rw [henc] at hdes
      unfold MqttAppenderBuilder.build at hdes
      simp only [MqttAppenderBuilder.set_broker, MqttAppenderBuilder.set_client_id,
        MqttAppenderBuilder.set_topic, MqttAppenderBuilder.set_username,
        MqttAppenderBuilder.set_password, MqttAppenderBuilder.set_encoder,
        MqttAppender.builder] at hdes
      cases hparse : parseBrokerUrl cfg.broker with
      | error e => rw [hparse] at hdes; cases hdes
      | ok hp =>
        obtain ⟨host, port⟩ := hp
        rw [hparse] at hdes
        simp only [Except.ok.injEq, Prod.mk.injEq] at hdes
        obtain ⟨-, happ⟩ := hdes
        rw [← happ]

/-- Witness for C6: deserializing a configuration without a `qos` key yields
an appender with QoS AtMostOnce. -/
theorem mqtt_qos_mapping_witness :
    demoConfigNoQos.qos = none ∧
    MqttAppenderDeserializer.deserialize demoConfigNoQos =
      .ok ({ host := "localhost".data, port := 1883, client_id := "log4rs_client".data,
             keep_alive := 30, credentials := none },
           { topic_template := "logs".data, qos := QoS.AtMostOnce,
             encoder := patternEncoderDefault }) ∧
    ({ topic_template := "logs".data, qos := QoS.AtMostOnce,
       encoder := patternEncoderDefault } : MqttAppender).qos = QoS.AtMostOnce := by
  refine ⟨rfl, rfl, ?_⟩
  exact mqtt_qos_mapping.2.2.2 demoConfigNoQos
    { host := "localhost".data, port := 1883, client_id := "log4rs_client".data,
      keep_alive := 30, credentials := none }
    { topic_template := "logs".data, qos := QoS.AtMostOnce,
      encoder := patternEncoderDefault } rfl rfl

/-- C7: at build time the connection options carry credentials exactly when
both a username and a password are supplied; supplying only one of the two
leaves the connection without credentials. -/
theorem mqtt_build_credentials (b : MqttAppenderBuilder) (opts : MqttOptions)
    (a : MqttAppender) (h : b.build = .ok (opts, a)) :
    (∀ u p, opts.credentials = some (u, p) ↔
      b.username = some u ∧ b.password = some p) ∧
    (opts.credentials = none ↔ b.username = none ∨ b.password = none) := by
  unfold MqttAppenderBuilder.build at h
  cases hparse : parseBrokerUrl b.broker with
  | error e => rw [hparse] at h; cases h
  | ok hp =>
    obtain ⟨host, port⟩ := hp
    rw [hparse] at h
    simp only [Except.ok.injEq, Prod.mk.injEq] at h
    obtain ⟨hopts, -⟩ := h
    subst hopts
    constructor
    · intro u p
      cases hu : b.username <;> cases hpw : b.password <;> simp [hu, hpw]
    · cases hu : b.username <;> cases hpw : b.password <;> simp [hu, hpw]

/-- Witness for C7: the default builder with both username and password set
builds options carrying exactly those credentials. -/
theorem mqtt_build_credentials_witness :
    demoCredBuilder.build =
      .ok ({ host := "localhost".data, port := 1883, client_id := "log4rs_client".data,
             keep_alive := 30, credentials := some ("user".data, "pass".data) },
           { topic_template := "logs".data, qos := QoS.AtMostOnce,
             encoder := patternEncoderDefault }) ∧
    (({ host := "localhost".data, port := 1883, client_id := "log4rs_client".data,
        keep_alive := 30, credentials := some ("user".data, "pass".data) } :
        MqttOptions).credentials = some ("user".data, "pass".data) ↔
      demoCredBuilder.username = some "user".data ∧
      demoCredBuilder.password = some "pass".data) := by
  refine ⟨rfl, ?_⟩
  exact (mqtt_build_credentials demoCredBuilder
    { host := "localhost".data, port := 1883, client_id := "log4rs_client".data,
      keep_alive := 30, credentials := some ("user".data, "pass".data) }
    { topic_template := "logs".data, qos := QoS.AtMostOnce,
      encoder := patternEncoderDefault } rfl).1 "user".data "pass".data

/-- C8: the byte-buffer sink satisfies the encoder's writer contract
totally: `write` appends the entire input and returns ok with its length,
`flush` returns ok leaving the buffer unchanged, `set_style` accepts any
style with no effect, and running any operation sequence leaves the buffer
holding exactly the previously held bytes followed by all written bytes. -/
theorem mqtt_buffer_contract :
    (∀ (b : MqttBuffer) (buf : List Nat),
      b.write buf = (.ok buf.length, ⟨b.data ++ buf⟩)) ∧
    (∀ b : MqttBuffer, b.flush = (.ok (), b)) ∧
    (∀ (b : MqttBuffer) (st : Nat), b.setStyle st = (.ok (), b)) ∧
    (∀ (b : MqttBuffer) (ops : List WriteOp),
      runOps b ops = ⟨b.data ++ writtenBytes ops⟩) := by
  refine ⟨fun b buf => rfl, fun b => rfl, fun b st => rfl, fun b ops => ?_⟩
  rw [← runOps_data ops b]

/-- C9: `flush` on the appender is a no-op: it performs no publish and
leaves the appender unchanged. -/
theorem mqtt_flush_noop : ∀ a : MqttAppender, a.flush = (a, []) :=
  fun _ => rfl

/-- C10: broker-address parsing does not validate the host: every input
with no colon after scheme stripping — including the empty string and the
scheme-only "mqtt://" — succeeds with the (possibly empty) remainder as
host and default port 1883, and parsing only ever fails with InvalidPort,
exactly when a last-colon segment exists and does not parse as a u16. -/
theorem parse_host_only_total :
    (∀ s, rfindColon (stripSchemes s) = none →
      parseBrokerUrl s = .ok (stripSchemes s, 1883)) ∧
    parseBrokerUrl [] = .ok ([], 1883) ∧
    parseBrokerUrl "mqtt://".data = .ok ([], 1883) ∧
    (∀ (s : List Char) (e : ParseErr), parseBrokerUrl s = .error e →
      e = .invalidPort ∧ ∃ i, rfindColon (stripSchemes s) = some i ∧
        parseU16 ((stripSchemes s).drop (i + 1)) = none) := by
  refine ⟨parseBrokerUrl_no_colon, rfl, rfl, ?_⟩
  intro s e h
  cases e
  exact ⟨rfl, (parseBrokerUrl_error_iff s).mp h⟩

/-- Witness for C10: a plain host with no colon parses to itself with port
1883. -/
theorem parse_host_only_total_witness :
    parseBrokerUrl "broker.example".data = .ok ("broker.example".data, 1883) :=
  parse_host_only_total.1 "broker.example".data (by decide)
